import Mathlib

/-!
Verification of the PySP InterScenario plugin
(`pyomo/pysp/plugins/interscenario.py`), shallowly embedded in Lean 4.

Modelling conventions:
* numeric values (objectives, duals, probabilities, thresholds) are rationals;
* first-stage variables are indexed positionally by naturals, so a variable map
  `var_id -> value` becomes a `List ℚ`;
* scenario / bundle names are strings;
* a solver invocation is replaced by its outcome, passed in as data
  (acceptable termination with values, infeasible, nonoptimal, or a raised
  exception), so every function of the plugin becomes a pure function of the
  solver outcomes it observes.
-/

namespace InterScenario

/-! ## Solution registry (`_collect_unique_scenario_solutions`) -/

/-- One step of `InterScenarioPlugin._collect_unique_scenario_solutions`: a
scenario reporting first-stage vector `x` under name `n` is compared by exact
(dict) equality against each existing candidate in order; the first match gains
`n` on its scenario-name list, otherwise a fresh candidate `(x, [n])` is
appended at the end. -/
def addSolution (sols : List (List ℚ × List String)) (x : List ℚ) (n : String) :
    List (List ℚ × List String) :=
  match sols with
  | [] => [(x, [n])]
  | (v, ns) :: rest =>
    if v = x then (v, ns ++ [n]) :: rest
    else (v, ns) :: addSolution rest x n

/-- `InterScenarioPlugin._collect_unique_scenario_solutions`: starting from an
empty list, fold `addSolution` over the root-node scenarios in order.  Each
input pair is `(scenario._x[rootNode._name], scenario._name)`. -/
def collect_unique_scenario_solutions (scens : List (List ℚ × String)) :
    List (List ℚ × List String) :=
  scens.foldl (fun acc p => addSolution acc p.1 p.2) []

theorem map_if_id_of_not_mem (x : List ℚ) (l : List (List ℚ × List String))
    (h : ∀ e ∈ l, e.1 ≠ x) :
    l.map (fun e => if e.1 = x then (e.1, e.2 ++ [n]) else e) = l := by
  induction l with
  | nil => rfl
  | cons a t ih =>
    simp only [List.map_cons]
    rw [if_neg (h a (List.mem_cons_self a t))]
    rw [ih (fun e he => h e (List.mem_cons_of_mem a he))]

theorem addSolution_eq (x : List ℚ) (n : String)
    (acc : List (List ℚ × List String)) (hnd : (acc.map Prod.fst).Nodup) :
    addSolution acc x n =
      acc.map (fun e => if e.1 = x then (e.1, e.2 ++ [n]) else e) ++
      (if x ∈ acc.map Prod.fst then [] else [(x, [n])]) := by
  induction acc with
  | nil => simp [addSolution]
  | cons a t ih =>
    obtain ⟨v, ns⟩ := a
    simp only [List.map_cons, List.nodup_cons] at hnd
    by_cases hv : v = x
    · subst hv
      simp only [addSolution, if_pos rfl, List.map_cons]
      have ht : ∀ e ∈ t, e.1 ≠ v := by
        intro e he hev
        exact hnd.1 (hev ▸ List.mem_map_of_mem Prod.fst he)
      rw [map_if_id_of_not_mem v t ht]
      simp
    · simp only [addSolution, if_neg hv, List.map_cons]
      rw [ih hnd.2]
      have hx : (x ∈ v :: t.map Prod.fst) ↔ (x ∈ t.map Prod.fst) := by
        constructor
        · intro h
          rcases List.mem_cons.mp h with h | h
          · exact absurd h.symm hv
          · exact h
        · exact fun h => List.mem_cons_of_mem _ h
      by_cases hxt : x ∈ t.map Prod.fst
      · rw [if_pos hxt, if_pos (hx.mpr hxt)]
        simp
      · rw [if_neg hxt, if_neg (fun h => hxt (hx.mp h))]
        simp

/-- Invariant of the registry fold: candidate vectors are pairwise distinct,
each candidate's scenario list is exactly the names of processed scenarios
reporting that vector in input order, and every processed scenario has a
candidate. -/
def RegInv (processed : List (List ℚ × String))
    (acc : List (List ℚ × List String)) : Prop :=
  (acc.map Prod.fst).Nodup ∧
  (∀ e ∈ acc, e.2 = (processed.filter (fun p => p.1 = e.1)).map Prod.snd) ∧
  (∀ p ∈ processed, ∃ e ∈ acc, e.1 = p.1)

theorem regInv_step (processed : List (List ℚ × String))
    (acc : List (List ℚ × List String)) (x : List ℚ) (n : String)
    (h : RegInv processed acc) :
    RegInv (processed ++ [(x, n)]) (addSolution acc x n) := by
  obtain ⟨hnd, hnames, hcover⟩ := h
  have hlift := addSolution_eq x n acc hnd
  by_cases hx : x ∈ acc.map Prod.fst
  · rw [hlift, if_pos hx, List.append_nil]
    refine ⟨?_, ?_, ?_⟩
    · have : (acc.map (fun e => if e.1 = x then (e.1, e.2 ++ [n]) else e)).map
          Prod.fst = acc.map Prod.fst := by
        rw [List.map_map]
        apply List.map_congr_left
        intro e _
        by_cases he : e.1 = x <;> simp [he]
      rw [this]; exact hnd
    · intro e he
      rw [List.mem_map] at he
      obtain ⟨a, ha, hae⟩ := he
      by_cases hax : a.1 = x
      · rw [if_pos hax] at hae
        subst hae
        simp only [List.filter_append, List.map_append]
        rw [← hnames a ha]
        simp [hax]
      · rw [if_neg hax] at hae
        subst hae
        simp only [List.filter_append, List.map_append]
        rw [← hnames a ha]
        have hxa : ¬x = a.1 := fun h => hax h.symm
        simp [hxa]
    · intro p hp
      rcases List.mem_append.mp hp with hp | hp
      · obtain ⟨e, he, hee⟩ := hcover p hp
        refine ⟨if e.1 = x then (e.1, e.2 ++ [n]) else e, List.mem_map_of_mem _ he, ?_⟩
        by_cases hex : e.1 = x
        · rw [if_pos hex]; exact hee
        · rw [if_neg hex]; exact hee
      · rw [List.mem_singleton] at hp
        subst hp
        rw [List.mem_map] at hx
        obtain ⟨a, ha, hax⟩ := hx
        refine ⟨(a.1, a.2 ++ [n]), ?_, hax⟩
        have : (if a.1 = x then (a.1, a.2 ++ [n]) else a) = (a.1, a.2 ++ [n]) := by
          rw [if_pos hax]
        exact this ▸ List.mem_map_of_mem _ ha
  · rw [hlift, if_neg hx]
    have hnox : ∀ e ∈ acc, e.1 ≠ x := by
      intro e he hex
      exact hx (hex ▸ List.mem_map_of_mem Prod.fst he)
    rw [map_if_id_of_not_mem x acc hnox]
    have hpnox : ∀ p ∈ processed, p.1 ≠ x := by
      intro p hp hpx
      obtain ⟨e, he, hee⟩ := hcover p hp
      exact hnox e he (hee.trans hpx)
    refine ⟨?_, ?_, ?_⟩
    · rw [List.map_append, List.map_singleton]
      apply List.Nodup.append hnd (List.nodup_singleton x)
      intro a ha hax
      rw [List.mem_singleton] at hax
      subst hax
      exact hx ha
    · intro e he
      rcases List.mem_append.mp he with he | he
      · simp only [List.filter_append, List.map_append]
        rw [← hnames e he]
        have : (x, n).1 = e.1 ↔ False := by
          constructor
          · intro hh; exact hnox e he hh.symm
          · exact False.elim
        simp [this]
      · rw [List.mem_singleton] at he
        subst he
        simp only [List.filter_append, List.map_append]
        have hfp : processed.filter (fun p => p.1 = (x, ([n] : List String)).1) = [] := by
          apply List.filter_eq_nil_iff.mpr
          intro p hp
          simp only [decide_eq_true_eq]
          exact hpnox p hp
        rw [hfp]
        simp
    · intro p hp
      rcases List.mem_append.mp hp with hp | hp
      · obtain ⟨e, he, hee⟩ := hcover p hp
        exact ⟨e, List.mem_append_left _ he, hee⟩
      · rw [List.mem_singleton] at hp
        subst hp
        exact ⟨(x, [n]), List.mem_append_right _ (List.mem_singleton_self _), rfl⟩

theorem regInv_fold (l : List (List ℚ × String)) :
    ∀ (processed : List (List ℚ × String)) (acc : List (List ℚ × List String)),
      RegInv processed acc →
      RegInv (processed ++ l) (l.foldl (fun a p => addSolution a p.1 p.2) acc) := by
  induction l with
  | nil => intro processed acc h; simpa using h
  | cons p t ih =>
    intro processed acc h
    have h1 := regInv_step processed acc p.1 p.2 h
    have h2 := ih (processed ++ [(p.1, p.2)]) (addSolution acc p.1 p.2) h1
    simpa using h2

/-- C7: after collecting, the registry holds one candidate per distinct decision
vector (candidate vectors are pairwise distinct and every reported vector has a
candidate), and each candidate's scenario-name list is exactly the names of all
scenarios that reported that vector, in input (insertion) order — so any two
scenarios reporting component-wise equal vectors share one candidate. -/
theorem collect_unique_dedup (scens : List (List ℚ × String)) :
    ((collect_unique_scenario_solutions scens).map Prod.fst).Nodup ∧
    (∀ e ∈ collect_unique_scenario_solutions scens,
       e.2 = (scens.filter (fun p => p.1 = e.1)).map Prod.snd) ∧
    (∀ p ∈ scens, ∃ e ∈ collect_unique_scenario_solutions scens, e.1 = p.1) := by
  have h0 : RegInv [] [] := by
    refine ⟨List.nodup_nil, ?_, ?_⟩
    · intro e he; cases he
    · intro p hp; cases hp
  have h := regInv_fold scens [] [] h0
  simpa [collect_unique_scenario_solutions, RegInv] using h

/-! ## Separation problem (`solve_separation_problem`)

The separation model's mutable pieces touched by `solve_separation_problem` are
tracked explicitly: whether the `core.relax_discrete` transformation is applied,
whether the native objective and the separation objective are active, and the
state of the separation variables (fixed to zero, and their bounds).  The module
constant `ALLOW_VARIABLE_SLACK` selects between the fix-to-zero and the
±epsilon-bounds regime; we keep it as a parameter `allowSlack`. -/

/-- Bound/fixedness state of the separation variables (`_sep`). -/
structure SepVarState where
  sepFixed : Bool
  sepLB : Option ℚ
  sepUB : Option ℚ
deriving DecidableEq

/-- The model state that `solve_separation_problem` mutates and must restore. -/
structure SepModelState where
  discreteRelaxed : Bool
  origObjActive : Bool
  sepObjActive : Bool
  sepVars : SepVarState
deriving DecidableEq

/-- Outcome of one `solver.solve` call on the separation problem: acceptable
termination (carrying the separation-variable/fixed-value pairs of the loaded
solution and the separation objective value), an infeasible or invalid-problem
termination, any other non-acceptable termination, or a raised exception. -/
inductive SepSolveOutcome where
  | acceptable (vals : List (ℚ × ℚ)) (obj : ℚ)
  | infeasible
  | nonoptimal
  | exn
deriving DecidableEq

/-- Value returned by `solve_separation_problem`: the cut tuple
`(math.sqrt(obj), cut-dict)` — we carry the pre-`sqrt` objective value `objVal`
— or the failure markers `"!!!!"` (infeasible/invalid) and `"????"` (other
non-acceptable status). -/
inductive SepAns where
  | cutAns (objVal : ℚ) (vals : List (ℚ × ℚ))
  | bangs
  | quests
deriving DecidableEq

/-- The state of the separation model as built by `get_modified_instance`
(the pre-call state that a correct `solve_separation_problem` must restore):
no discrete relaxation, native objective active, separation objective
deactivated, and the separation variables fixed to zero (`ALLOW_VARIABLE_SLACK
= False`) or bounded to `[-epsilon, epsilon]` (`ALLOW_VARIABLE_SLACK = True`,
in which case they are never fixed). -/
def preCallState (allowSlack : Bool) (eps : ℚ) : SepModelState :=
  { discreteRelaxed := false
    origObjActive := true
    sepObjActive := false
    sepVars :=
      if allowSlack then { sepFixed := false, sepLB := some (-eps), sepUB := some eps }
      else { sepFixed := true, sepLB := none, sepUB := none } }

/-- `solve_separation_problem(solver, model, fallback)`.  It first relaxes the
discrete domains, swaps the objectives and frees the separation variables; then
it calls `solver.solve` inside a `try` whose `except` clause logs and
**re-raises** (only the output redirect lives in the `finally`); on a
non-exception outcome it builds the answer and then restores the objectives,
separation variables and discrete domains.  The `fallback` flag only controls
logging.  On the exception path the function terminates with `.error`, carrying
the (modified, unrestored) model state. -/
def solve_separation_problem (allowSlack : Bool) (eps : ℚ)
    (outcome : SepSolveOutcome) (fallback : Bool) (st : SepModelState) :
    Except SepModelState (SepAns × SepModelState) :=
  let _ := fallback
  let st1 : SepModelState :=
    { discreteRelaxed := true
      origObjActive := false
      sepObjActive := true
      sepVars :=
        if allowSlack then { st.sepVars with sepLB := none, sepUB := none }
        else { st.sepVars with sepFixed := false } }
  match outcome with
  | .exn => .error st1
  | o =>
    let ans : SepAns :=
      match o with
      | .acceptable vals obj => .cutAns obj vals
      | .infeasible => .bangs
      | _ => .quests
    let st2 : SepModelState :=
      { discreteRelaxed := false
        origObjActive := true
        sepObjActive := false
        sepVars :=
          if allowSlack then { st1.sepVars with sepLB := some (-eps), sepUB := some eps }
          else { st1.sepVars with sepFixed := true } }
    .ok (ans, st2)

/-- C1 counterexample: when the inner `solver.solve` raises, the model is left
in the modified state — discrete domains still relaxed, the native objective
deactivated, the separation objective active, and the separation variables
unfixed — which differs from the pre-call state.  The restoration code sits
after the `try`/`except` block that re-raises, not in a `finally`. -/
theorem sep_restore_fails_on_exception :
    solve_separation_problem false 0 SepSolveOutcome.exn true (preCallState false 0) =
      Except.error
        { discreteRelaxed := true, origObjActive := false, sepObjActive := true,
          sepVars := { sepFixed := false, sepLB := none, sepUB := none } } ∧
    ({ discreteRelaxed := true, origObjActive := false, sepObjActive := true,
       sepVars := { sepFixed := false, sepLB := none, sepUB := none } } : SepModelState)
      ≠ preCallState false 0 := by
  constructor
  · rfl
  · intro h
    have := congrArg SepModelState.discreteRelaxed h
    simp [preCallState] at this

/-- C1 (amended): on every exit path on which the inner `solver.solve` call
does not raise — acceptable, infeasible/invalid, or any other non-acceptable
status — `solve_separation_problem` returns the model in exactly its pre-call
state (relaxation undone, native objective re-activated, separation objective
deactivated, separation variables re-fixed to zero resp. re-bounded to
±epsilon); on the exception path no restoration is performed and the exception
propagates. -/
theorem sep_restores_on_nonexception (allowSlack : Bool) (eps : ℚ)
    (o : SepSolveOutcome) (fallback : Bool) (ho : o ≠ SepSolveOutcome.exn) :
    ∃ ans, solve_separation_problem allowSlack eps o fallback
        (preCallState allowSlack eps) = Except.ok (ans, preCallState allowSlack eps) := by
  cases o with
  | exn => exact absurd rfl ho
  | acceptable vals obj =>
    refine ⟨SepAns.cutAns obj vals, ?_⟩
    cases allowSlack <;> simp [solve_separation_problem, preCallState]
  | infeasible =>
    refine ⟨SepAns.bangs, ?_⟩
    cases allowSlack <;> simp [solve_separation_problem, preCallState]
  | nonoptimal =>
    refine ⟨SepAns.quests, ?_⟩
    cases allowSlack <;> simp [solve_separation_problem, preCallState]

/-- Witness for `sep_restores_on_nonexception` at a concrete input. -/
theorem sep_restores_on_nonexception_witness :
    SepSolveOutcome.infeasible ≠ SepSolveOutcome.exn ∧
    ∃ ans, solve_separation_problem false 0 SepSolveOutcome.infeasible true
        (preCallState false 0) = Except.ok (ans, preCallState false 0) :=
  ⟨by decide, sep_restores_on_nonexception false 0 SepSolveOutcome.infeasible true (by decide)⟩

/-! ## Retry logic of `solve_fixed_scenario_solutions` (C6)

In `solve_fixed_scenario_solutions`, when the fixed-decision solve is not
acceptable, the code runs
`cut = solve_separation_problem(ph._solver, model, True)` and retries with
ipopt only under `if cut == '????'`. -/

/-- The separation call followed by the conditional ipopt retry, as written in
`solve_fixed_scenario_solutions` (lines 487–491).  The boolean records whether
the fallback solver was invoked. -/
def sep_with_retry (allowSlack : Bool) (eps : ℚ)
    (primary fbOutcome : SepSolveOutcome) :
    Except SepModelState (SepAns × Bool) :=
  match solve_separation_problem allowSlack eps primary true
      (preCallState allowSlack eps) with
  | .error s => .error s
  | .ok (cut, st') =>
    if cut = SepAns.quests then
      match solve_separation_problem allowSlack eps fbOutcome false st' with
      | .error s => .error s
      | .ok (cut2, _) => .ok (cut2, true)
    else .ok (cut, false)

/-- C6 counterexample: the primary separation solve terminates infeasible, the
fallback solver would have succeeded, yet the fallback is never invoked (the
flag is `false`) and the `"!!!!"` failure marker is returned: the retry guard
is `cut == '????'`, which the infeasible marker `"!!!!"` does not match. -/
theorem sep_retry_skipped_on_infeasible :
    sep_with_retry false 0 SepSolveOutcome.infeasible
        (SepSolveOutcome.acceptable [] 0) =
      Except.ok (SepAns.bangs, false) := by
  rfl

/-- C6 (amended): the fallback (ipopt) retry happens exactly when the primary
separation solve ends with a status that is neither acceptable nor
infeasible/invalid (the `"????"` marker); an infeasible/invalid primary status
returns the `"!!!!"` marker with no retry, and an acceptable primary status
returns its cut with no retry.  When the retry does run, the fallback's own
answer is what comes back: if the fallback also fails, its failure marker
(`"!!!!"` or `"????"`) is returned, so the (scenario, candidate) pair is
reported without a usable cut. -/
theorem sep_retry_characterization (allowSlack : Bool) (eps : ℚ)
    (fbOutcome : SepSolveOutcome) (hfb : fbOutcome ≠ SepSolveOutcome.exn) :
    (fbOutcome = SepSolveOutcome.infeasible →
      sep_with_retry allowSlack eps SepSolveOutcome.nonoptimal fbOutcome =
        Except.ok (SepAns.bangs, true)) ∧
    (fbOutcome = SepSolveOutcome.nonoptimal →
      sep_with_retry allowSlack eps SepSolveOutcome.nonoptimal fbOutcome =
        Except.ok (SepAns.quests, true)) ∧
    (∀ vals obj, fbOutcome = SepSolveOutcome.acceptable vals obj →
      sep_with_retry allowSlack eps SepSolveOutcome.nonoptimal fbOutcome =
        Except.ok (SepAns.cutAns obj vals, true)) ∧
    sep_with_retry allowSlack eps SepSolveOutcome.infeasible fbOutcome =
      Except.ok (SepAns.bangs, false) ∧
    (∀ vals obj, sep_with_retry allowSlack eps
        (SepSolveOutcome.acceptable vals obj) fbOutcome =
      Except.ok (SepAns.cutAns obj vals, false)) := by
  refine ⟨?_, ?_, ?_, ?_, ?_⟩
  · intro hf
    subst hf
    cases allowSlack <;> rfl
  · intro hf
    subst hf
    cases allowSlack <;> rfl
  · intro vals obj hf
    subst hf
    cases allowSlack <;> rfl
  · cases allowSlack <;> rfl
  · intro vals obj
    cases allowSlack <;> rfl

/-- Witness for `sep_retry_characterization` at a concrete input: a NONOPTIMAL
primary solve followed by an infeasible fallback returns the fallback's
`"!!!!"` marker with the retry flag set, while an infeasible primary solve
returns `"!!!!"` without any retry. -/
theorem sep_retry_characterization_witness :
    SepSolveOutcome.infeasible ≠ SepSolveOutcome.exn ∧
    sep_with_retry false 0 SepSolveOutcome.nonoptimal
      SepSolveOutcome.infeasible = Except.ok (SepAns.bangs, true) ∧
    sep_with_retry false 0 SepSolveOutcome.infeasible
      SepSolveOutcome.infeasible = Except.ok (SepAns.bangs, false) := by
  have h := sep_retry_characterization false 0 SepSolveOutcome.infeasible
    (by decide)
  exact ⟨by decide, h.1 rfl, h.2.2.2.1⟩

/-! ## Fixed-scenario evaluation (`solve_fixed_scenario_solutions`, C2) -/

/-- One entry of the returned `cutlist`: the feasible marker `".  "`, a
separation answer (cut tuple or failure marker), or the `"?  "` marker of the
NONOPTIMAL branch (unreachable in the source: the preceding branch is guarded
by `elif True or ...`). -/
inductive CutEntry where
  | dot
  | ans (a : SepAns)
  | qmark
deriving DecidableEq

/-- Outcome of the fixed-decision solve of one candidate on one
scenario/bundle: acceptable termination (with the native objective value and
the dual map extracted by `get_dual_values`), any non-acceptable termination
(which the source sends to the separation problem via `elif True or ...`,
carrying the primary and fallback separation-solve outcomes), or a raised
exception. -/
inductive NativeOutcome where
  | ok (obj : ℚ) (duals : List ℚ)
  | fail (primary fbOutcome : SepSolveOutcome)
  | exn
deriving DecidableEq

/-- Body of the per-candidate loop of `solve_fixed_scenario_solutions`: on an
acceptable solve, append the objective, the duals and `".  "`; otherwise append
`None, None` and the (possibly retried) separation answer; a raised solver
exception propagates out of the whole call. -/
def eval_candidate (allowSlack : Bool) (eps : ℚ) (o : NativeOutcome) :
    Except Unit (Option ℚ × Option (List ℚ) × CutEntry) :=
  match o with
  | .ok obj duals => .ok (some obj, some duals, CutEntry.dot)
  | .fail p fb =>
    match sep_with_retry allowSlack eps p fb with
    | .error _ => .error ()
    | .ok (c, _) => .ok (none, none, CutEntry.ans c)
  | .exn => .error ()

/-- The loop of `solve_fixed_scenario_solutions` over `scenario_solutions`,
carrying the candidate index `i` into the table of solver outcomes.  The
`local` flag is computed exactly as in the source and then dropped (the body of
`if local:` is `pass`): candidates owned by this scenario are re-solved too. -/
def sfss_go (allowSlack : Bool) (eps : ℚ) (localScenarios : List String)
    (outcomes : ℕ → NativeOutcome) :
    ℕ → List (List ℚ × List String) →
      Except Unit (List (Option ℚ) × List (Option (List ℚ)) × List CutEntry)
  | _, [] => .ok ([], [], [])
  | i, s :: rest =>
    let _local : Bool := s.2.any (fun nm => localScenarios.contains nm)
    match eval_candidate allowSlack eps (outcomes i) with
    | .error e => .error e
    | .ok (ov, dv, ce) =>
      match sfss_go allowSlack eps localScenarios outcomes (i + 1) rest with
      | .error e => .error e
      | .ok (ovs, dvs, ces) => .ok (ov :: ovs, dv :: dvs, ce :: ces)

/-- `solve_fixed_scenario_solutions`: returns
`(obj_values, dual_values, cutlist)`, one entry per candidate solution. -/
def solve_fixed_scenario_solutions (allowSlack : Bool) (eps : ℚ)
    (localScenarios : List String) (solutions : List (List ℚ × List String))
    (outcomes : ℕ → NativeOutcome) :
    Except Unit (List (Option ℚ) × List (Option (List ℚ)) × List CutEntry) :=
  sfss_go allowSlack eps localScenarios outcomes 0 solutions

/-- The serial (non-PHPyro) branch of `_solve_interscenario_solutions`: run
`solve_fixed_scenario_solutions` on each subproblem in order and collect the
result triples.  `outcomes p i` is the solver outcome for subproblem index `p`
and candidate index `i`. -/
def solve_interscenario_serial (allowSlack : Bool) (eps : ℚ)
    (problems : List (List String)) (solutions : List (List ℚ × List String))
    (outcomes : ℕ → ℕ → NativeOutcome) :
    Except Unit
      (List (List (Option ℚ) × List (Option (List ℚ)) × List CutEntry)) :=
  go 0 problems
where
  go : ℕ → List (List String) →
      Except Unit
        (List (List (Option ℚ) × List (Option (List ℚ)) × List CutEntry))
  | _, [] => .ok []
  | p, ps :: rest =>
    match solve_fixed_scenario_solutions allowSlack eps ps solutions
        (outcomes p) with
    | .error e => .error e
    | .ok t =>
      match go (p + 1) rest with
      | .error e => .error e
      | .ok ts => .ok (t :: ts)

/-- The result count asserted by the claim: one result per (scenario-or-bundle,
candidate) pair in which the subproblem does **not** own the candidate. -/
def claimedResultCount (problems : List (List String))
    (solutions : List (List ℚ × List String)) : ℕ :=
  (problems.map (fun ps =>
    (solutions.filter
      (fun s => ¬ s.2.any (fun nm => ps.contains nm))).length)).sum

theorem sfss_go_lengths (allowSlack : Bool) (eps : ℚ)
    (localScenarios : List String) (outcomes : ℕ → NativeOutcome) :
    ∀ (solutions : List (List ℚ × List String)) (i : ℕ)
      (res : List (Option ℚ) × List (Option (List ℚ)) × List CutEntry),
      sfss_go allowSlack eps localScenarios outcomes i solutions =
        Except.ok res →
      res.1.length = solutions.length ∧
      res.2.1.length = solutions.length ∧
      res.2.2.length = solutions.length := by
  intro solutions
  induction solutions with
  | nil =>
    intro i res h
    simp only [sfss_go] at h
    cases h
    exact ⟨rfl, rfl, rfl⟩
  | cons s rest ih =>
    intro i res h
    simp only [sfss_go] at h
    cases he : eval_candidate allowSlack eps (outcomes i) with
    | error e => rw [he] at h; cases h
    | ok v =>
      obtain ⟨ov, dv, ce⟩ := v
      rw [he] at h
      cases hr : sfss_go allowSlack eps localScenarios outcomes (i + 1) rest with
      | error e => rw [hr] at h; cases h
      | ok ts =>
        obtain ⟨ovs, dvs, ces⟩ := ts
        rw [hr] at h
        cases h
        obtain ⟨h1, h2, h3⟩ := ih (i + 1) (ovs, dvs, ces) hr
        exact ⟨by simpa using h1, by simpa using h2, by simpa using h3⟩

theorem serial_go_lengths (allowSlack : Bool) (eps : ℚ)
    (solutions : List (List ℚ × List String)) (outcomes : ℕ → ℕ → NativeOutcome) :
    ∀ (problems : List (List String)) (p : ℕ)
      (results : List (List (Option ℚ) × List (Option (List ℚ)) × List CutEntry)),
      solve_interscenario_serial.go allowSlack eps solutions outcomes p problems =
        Except.ok results →
      results.length = problems.length ∧
      ∀ t ∈ results, t.1.length = solutions.length ∧
        t.2.1.length = solutions.length ∧ t.2.2.length = solutions.length := by
  intro problems
  induction problems with
  | nil =>
    intro p results h
    simp only [solve_interscenario_serial.go] at h
    cases h
    exact ⟨rfl, fun t ht => absurd ht (List.not_mem_nil t)⟩
  | cons ps rest ih =>
    intro p results h
    simp only [solve_interscenario_serial.go] at h
    cases ht : solve_fixed_scenario_solutions allowSlack eps ps solutions
        (outcomes p) with
    | error e => rw [ht] at h; cases h
    | ok t =>
      rw [ht] at h
      cases hr : solve_interscenario_serial.go allowSlack eps solutions
          outcomes (p + 1) rest with
      | error e => rw [hr] at h; cases h
      | ok ts =>
        rw [hr] at h
        cases h
        obtain ⟨hl, hmem⟩ := ih (p + 1) ts hr
        refine ⟨by simp [hl], ?_⟩
        intro u hu
        rcases List.mem_cons.mp hu with hu | hu
        · subst hu
          exact sfss_go_lengths allowSlack eps ps (outcomes p) solutions 0 u ht
        · exact hmem u hu

/-- C2 counterexample: one scenario `s1`, one candidate owned by `s1`, the
solve succeeds.  The claimed count — one result per pair in which the scenario
does not own the candidate — is `0`, but the code produces `1` result: the
ownership test computes `local = True` and then does nothing (`pass`), so the
owning pair is evaluated anyway. -/
theorem result_for_owning_pair :
    solve_interscenario_serial false 0 [["s1"]] [([0], ["s1"])]
        (fun _ _ => NativeOutcome.ok 0 []) =
      Except.ok [([some 0], [some []], [CutEntry.dot])] ∧
    claimedResultCount [["s1"]] [([0], ["s1"])] = 0 ∧
    ([(some (0 : ℚ))] : List (Option ℚ)).length ≠ 0 := by
  refine ⟨rfl, by decide, by decide⟩

/-- C2 (amended): after the EVALUATE phase each subproblem's result arrays hold
exactly one entry per candidate — including candidates the subproblem itself
owns, which the code deliberately re-solves — so the total number of result
slots is `len(candidates) × len(scenarios-or-bundles)`, not
`len(candidates) × len(scenarios_not_owning_that_candidate)`. -/
theorem result_completeness (allowSlack : Bool) (eps : ℚ)
    (problems : List (List String)) (solutions : List (List ℚ × List String))
    (outcomes : ℕ → ℕ → NativeOutcome)
    (results : List (List (Option ℚ) × List (Option (List ℚ)) × List CutEntry))
    (h : solve_interscenario_serial allowSlack eps problems solutions outcomes =
      Except.ok results) :
    (results.map (fun t => t.2.2.length)).sum =
      problems.length * solutions.length ∧
    ∀ t ∈ results, t.1.length = solutions.length ∧
      t.2.1.length = solutions.length ∧ t.2.2.length = solutions.length := by
  obtain ⟨hl, hmem⟩ := serial_go_lengths allowSlack eps solutions outcomes
    problems 0 results h
  constructor
  · have : results.map (fun t => t.2.2.length) =
        results.map (fun _ => solutions.length) := by
      apply List.map_congr_left
      intro t ht
      exact (hmem t ht).2.2
    rw [this, List.map_const', List.sum_replicate, smul_eq_mul, hl, Nat.mul_comm]
  · exact hmem

/-- Witness for `result_completeness` at a concrete input: two subproblems and
two candidates give four result slots. -/
theorem result_completeness_witness :
    solve_interscenario_serial false 0 [["s1"], ["s2"]]
        [([0], ["s1"]), ([1], ["s2"])] (fun _ _ => NativeOutcome.ok 0 []) =
      Except.ok [([some 0, some 0], [some [], some []], [CutEntry.dot, CutEntry.dot]),
                 ([some 0, some 0], [some [], some []], [CutEntry.dot, CutEntry.dot])] ∧
    (([([some 0, some 0], [some [], some []], [CutEntry.dot, CutEntry.dot]),
       ([some 0, some 0], [some [], some []], [CutEntry.dot, CutEntry.dot])] :
        List (List (Option ℚ) × List (Option (List ℚ)) × List CutEntry)).map
        (fun t => t.2.2.length)).sum = 2 * 2 := by
  have h : solve_interscenario_serial false 0 [["s1"], ["s2"]]
      [([0], ["s1"]), ([1], ["s2"])] (fun _ _ => NativeOutcome.ok 0 []) =
      Except.ok [([some 0, some 0], [some [], some []], [CutEntry.dot, CutEntry.dot]),
                 ([some 0, some 0], [some [], some []], [CutEntry.dot, CutEntry.dot])] := rfl
  refine ⟨h, ?_⟩
  have hc := (result_completeness false 0 [["s1"], ["s2"]]
      [([0], ["s1"]), ([1], ["s2"])] (fun _ _ => NativeOutcome.ok 0 []) _ h).1
  simp only [List.length_cons, List.length_nil] at hc
  exact hc

/-! ## Incumbent tracking (`_compute_objective`, `_update_incumbent`, C3) -/

/-- Loop body of `_compute_objective` over `enumerate(probability)`: once the
accumulator is `None` (a subproblem had no objective for this candidate, i.e.
the `break`), it stays `None`; otherwise add `p * partial`. -/
def obj_step (partials : List (List (Option ℚ))) (soln_id : ℕ)
    (acc : Option ℚ) (sp : ℕ × ℚ) : Option ℚ :=
  match acc with
  | none => none
  | some a =>
    match (partials.getD sp.1 []).getD soln_id none with
    | none => none
    | some v => some (a + sp.2 * v)

/-- `_compute_objective`: for each candidate index, the probability-weighted
sum of the per-subproblem objective values, or `None` as soon as any
subproblem's value for that candidate is `None`. -/
def compute_objective (nSolutions : ℕ) (partials : List (List (Option ℚ)))
    (probs : List ℚ) : List (Option ℚ) :=
  (List.range nSolutions).map (fun soln_id =>
    probs.enum.foldl (obj_step partials soln_id) (some 0))

/-- Python's `min(l, key=itemgetter(1))` on a nonempty list `hd :: l`: the
first element attaining the minimal second component. -/
def pyMinBySnd (hd : ℕ × ℚ) (l : List (ℕ × ℚ)) : ℕ × ℚ :=
  l.foldl (fun best x => if x.2 < best.2 then x else best) hd

/-- The list `((x[0], sense*x[1]) for x in feasible_obj)` built by
`_update_incumbent` from the enumerated non-`None` feasible objectives. -/
def feasibleEnum (sense : ℚ) (feasObjs : List (Option ℚ)) : List (ℕ × ℚ) :=
  feasObjs.enum.filterMap (fun p => p.2.map (fun o => (p.1, sense * o)))

/-- The incumbent-update portion of `_update_incumbent`: nothing happens when
no candidate is feasible for every subproblem; otherwise the candidate with the
smallest sense-adjusted objective (first in case of ties, as Python's `min`) is
taken, and the incumbent is replaced exactly when it is `None` or its
sense-adjusted objective is strictly worse.  The stored pair is
`(best_obj * sense, best_id)`, mirroring the source's
`(best_obj*self._sense_to_min, ..., best_id)`. -/
def update_incumbent (sense : ℚ) (inc : Option (ℚ × ℕ))
    (feasObjs : List (Option ℚ)) : Option (ℚ × ℕ) :=
  match feasibleEnum sense feasObjs with
  | [] => inc
  | h :: t =>
    let best := pyMinBySnd h t
    match inc with
    | none => some (best.2 * sense, best.1)
    | some (io, ii) =>
      if io * sense > best.2 then some (best.2 * sense, best.1)
      else some (io, ii)

/-- A run of `_update_incumbent` calls after `reset` (`self.incumbent = None`),
each on the output of `_compute_objective` for that invocation's collected
partial objectives. -/
def incumbentRun (sense : ℚ)
    (hist : List (ℕ × List (List (Option ℚ)) × List ℚ)) : Option (ℚ × ℕ) :=
  hist.foldl (fun inc st =>
    update_incumbent sense inc (compute_objective st.1 st.2.1 st.2.2)) none

theorem pyMinBySnd_mem (l : List (ℕ × ℚ)) :
    ∀ hd, pyMinBySnd hd l ∈ hd :: l := by
  induction l with
  | nil => intro hd; simp [pyMinBySnd]
  | cons x t ih =>
    intro hd
    have hstep : pyMinBySnd hd (x :: t) =
        pyMinBySnd (if x.2 < hd.2 then x else hd) t := rfl
    rw [hstep]
    have h := ih (if x.2 < hd.2 then x else hd)
    rcases List.mem_cons.mp h with h | h
    · rw [h]
      by_cases hx : x.2 < hd.2
      · rw [if_pos hx]
        exact List.mem_cons_of_mem _ (List.mem_cons_self _ _)
      · rw [if_neg hx]
        exact List.mem_cons_self _ _
    · exact List.mem_cons_of_mem _ (List.mem_cons_of_mem _ h)

theorem pyMinBySnd_le (l : List (ℕ × ℚ)) :
    ∀ hd, ∀ x ∈ hd :: l, (pyMinBySnd hd l).2 ≤ x.2 := by
  induction l with
  | nil =>
    intro hd x hx
    rcases List.mem_cons.mp hx with hx | hx
    · subst hx; exact le_refl _
    · cases hx
  | cons y t ih =>
    intro hd x hx
    have hstep : pyMinBySnd hd (y :: t) =
        pyMinBySnd (if y.2 < hd.2 then y else hd) t := rfl
    have hmin : (pyMinBySnd (if y.2 < hd.2 then y else hd) t).2 ≤
        (if y.2 < hd.2 then y else hd).2 :=
      ih _ _ (List.mem_cons_self _ _)
    rcases List.mem_cons.mp hx with hx | hx
    · subst hx
      rw [hstep]
      by_cases hy : y.2 < x.2
      · rw [if_pos hy] at hmin ⊢
        exact hmin.trans (le_of_lt hy)
      · rw [if_neg hy] at hmin ⊢
        exact hmin
    · rcases List.mem_cons.mp hx with hx | hx
      · subst hx
        rw [hstep]
        by_cases hy : x.2 < hd.2
        · rw [if_pos hy] at hmin ⊢
          exact hmin
        · rw [if_neg hy] at hmin ⊢
          exact hmin.trans (le_of_not_lt hy)
      · rw [hstep]
        exact ih _ _ (List.mem_cons_of_mem _ hx)

theorem mem_feasibleEnum (sense : ℚ) (u : List (Option ℚ)) (j : ℕ) (w : ℚ)
    (h : (j, w) ∈ feasibleEnum sense u) :
    ∃ c, u.get? j = some (some c) ∧ w = sense * c := by
  rw [feasibleEnum, List.mem_filterMap] at h
  obtain ⟨⟨i, oc⟩, hmem, heq⟩ := h
  cases oc with
  | none => simp at heq
  | some c =>
    simp only [Option.map_some'] at heq
    have hp := Option.some.inj heq
    obtain ⟨h1, h2⟩ := Prod.mk.inj hp
    subst h1
    refine ⟨c, ?_, h2.symm⟩
    have hg := List.mk_mem_enum_iff_getElem?.mp hmem
    rw [List.get?_eq_getElem?]
    exact hg

/-- Single-step monotonicity of the incumbent update. -/
theorem update_incumbent_step (sense : ℚ) (hs : sense = 1 ∨ sense = -1)
    (o o' : ℚ) (i i' : ℕ) (u : List (Option ℚ))
    (h : update_incumbent sense (some (o, i)) u = some (o', i')) :
    sense * o' ≤ sense * o ∧
    ((o', i') = (o, i) ∨
      (sense * o' < sense * o ∧
        ∃ j c, u.get? j = some (some c) ∧ sense * c < sense * o)) := by
  unfold update_incumbent at h
  cases hfe : feasibleEnum sense u with
  | nil =>
    rw [hfe] at h
    have hp : (o', i') = (o, i) := (Option.some.inj h).symm
    obtain ⟨ho, hi⟩ := Prod.mk.inj hp
    subst ho; subst hi
    exact ⟨le_refl _, Or.inl rfl⟩
  | cons hd t =>
    rw [hfe] at h
    simp only at h
    by_cases hb : o * sense > (pyMinBySnd hd t).2
    · rw [if_pos hb] at h
      have hp : (o', i') = ((pyMinBySnd hd t).2 * sense, (pyMinBySnd hd t).1) :=
        (Option.some.inj h).symm
      obtain ⟨ho, hi⟩ := Prod.mk.inj hp
      subst ho; subst hi
      have hlt : (pyMinBySnd hd t).2 < sense * o := by
        rw [mul_comm]; exact hb
      have hadj : sense * ((pyMinBySnd hd t).2 * sense) = (pyMinBySnd hd t).2 := by
        rcases hs with hs | hs <;> rw [hs] <;> ring
      refine ⟨?_, Or.inr ⟨?_, ?_⟩⟩
      · rw [hadj]; exact le_of_lt hlt
      · rw [hadj]; exact hlt
      · have hmem : pyMinBySnd hd t ∈ feasibleEnum sense u := by
          rw [hfe]; exact pyMinBySnd_mem t hd
        obtain ⟨c, hc, hcw⟩ := mem_feasibleEnum sense u
          (pyMinBySnd hd t).1 (pyMinBySnd hd t).2 (by rwa [Prod.mk.eta])
        exact ⟨(pyMinBySnd hd t).1, c, hc, by rw [← hcw]; exact hlt⟩
    · rw [if_neg hb] at h
      have hp : (o', i') = (o, i) := (Option.some.inj h).symm
      obtain ⟨ho, hi⟩ := Prod.mk.inj hp
      subst ho; subst hi
      exact ⟨le_refl _, Or.inl rfl⟩

theorem obj_fold_none (partials : List (List (Option ℚ))) (soln_id : ℕ)
    (l : List (ℕ × ℚ)) :
    l.foldl (obj_step partials soln_id) none = none := by
  induction l with
  | nil => rfl
  | cons sp t ih => exact ih

theorem obj_fold_present (partials : List (List (Option ℚ))) (soln_id : ℕ) :
    ∀ (l : List (ℕ × ℚ)) (a c : ℚ),
      l.foldl (obj_step partials soln_id) (some a) = some c →
      ∀ sp ∈ l, ((partials.getD sp.1 []).getD soln_id none).isSome = true := by
  intro l
  induction l with
  | nil => intro a c _ sp hsp; cases hsp
  | cons hd t ih =>
    intro a c h sp hsp
    rcases List.mem_cons.mp hsp with hsp | hsp
    · subst hsp
      cases hv : (partials.getD sp.1 []).getD soln_id none with
      | none =>
        rw [List.foldl_cons] at h
        have hstep : obj_step partials soln_id (some a) sp = none := by
          show (match (partials.getD sp.1 []).getD soln_id none with
                | none => none
                | some v => some (a + sp.2 * v)) = none
          rw [hv]
        rw [hstep, obj_fold_none] at h
        cases h
      | some v => rfl
    · cases hv : (partials.getD hd.1 []).getD soln_id none with
      | none =>
        rw [List.foldl_cons] at h
        have hstep : obj_step partials soln_id (some a) hd = none := by
          show (match (partials.getD hd.1 []).getD soln_id none with
                | none => none
                | some v => some (a + hd.2 * v)) = none
          rw [hv]
        rw [hstep, obj_fold_none] at h
        cases h
      | some v =>
        rw [List.foldl_cons] at h
        have hstep : obj_step partials soln_id (some a) hd = some (a + hd.2 * v) := by
          show (match (partials.getD hd.1 []).getD soln_id none with
                | none => none
                | some w => some (a + hd.2 * w)) = some (a + hd.2 * v)
          rw [hv]
        rw [hstep] at h
        exact ih _ _ h sp hsp

/-- An everywhere-feasible expected objective: if `_compute_objective` yields a
value (not `None`) for candidate `j`, every subproblem contributed an objective
for `j`. -/
theorem compute_objective_all_feasible (nSolutions : ℕ)
    (partials : List (List (Option ℚ))) (probs : List ℚ) (j : ℕ) (c : ℚ)
    (h : (compute_objective nSolutions partials probs).get? j = some (some c)) :
    ∀ s, s < probs.length →
      ((partials.getD s []).getD j none).isSome = true := by
  intro s hs
  rw [compute_objective, List.get?_eq_getElem?, List.getElem?_map] at h
  cases hr : (List.range nSolutions)[j]? with
  | none => rw [hr] at h; cases h
  | some jv =>
    rw [hr] at h
    simp only [Option.map_some'] at h
    have hjn : j < nSolutions := by
      by_contra hc
      rw [List.getElem?_eq_none (by simpa using Nat.le_of_not_lt hc)] at hr
      cases hr
    have hjv : jv = j := by
      rw [List.getElem?_range hjn] at hr
      exact (Option.some.inj hr).symm
    rw [hjv] at h
    have hfold := Option.some.inj h
    have hmem : (s, probs.get ⟨s, hs⟩) ∈ probs.enum := by
      apply List.mk_mem_enum_iff_getElem?.mpr
      rw [List.getElem?_eq_getElem hs]
      rfl
    exact obj_fold_present partials j probs.enum 0 c hfold (s, probs.get ⟨s, hs⟩) hmem

/-- C3: across any sequence of incumbent updates after `reset`, the
sense-adjusted incumbent objective is non-increasing; the incumbent changes
only when some candidate whose expected objective exists (which requires every
subproblem to have evaluated it feasibly) is strictly better in the
sense-adjusted ordering, and is otherwise left unchanged. -/
theorem incumbent_monotone (sense : ℚ) (hs : sense = 1 ∨ sense = -1)
    (hist : List (ℕ × List (List (Option ℚ)) × List ℚ))
    (step : ℕ × List (List (Option ℚ)) × List ℚ)
    (o o' : ℚ) (i i' : ℕ)
    (h1 : incumbentRun sense hist = some (o, i))
    (h2 : incumbentRun sense (hist ++ [step]) = some (o', i')) :
    sense * o' ≤ sense * o ∧
    ((o', i') = (o, i) ∨
      (sense * o' < sense * o ∧
        ∃ j c,
          (compute_objective step.1 step.2.1 step.2.2).get? j = some (some c) ∧
          sense * c < sense * o ∧
          ∀ s, s < step.2.2.length →
            ((step.2.1.getD s []).getD j none).isSome = true)) := by
  have hfold : incumbentRun sense (hist ++ [step]) =
      update_incumbent sense (incumbentRun sense hist)
        (compute_objective step.1 step.2.1 step.2.2) := by
    rw [incumbentRun, incumbentRun, List.foldl_append]
    rfl
  rw [hfold, h1] at h2
  obtain ⟨hle, hrep⟩ := update_incumbent_step sense hs o o' i i' _ h2
  refine ⟨hle, ?_⟩
  rcases hrep with hrep | ⟨hstrict, j, c, hc, hcw⟩
  · exact Or.inl hrep
  · exact Or.inr ⟨hstrict, j, c, hc, hcw,
      compute_objective_all_feasible step.1 step.2.1 step.2.2 j c hc⟩

/-- Witness for `incumbent_monotone` at a concrete input: minimization sense,
one candidate, one subproblem; the first update installs incumbent `(5, 0)`,
the second sees objective `7` and leaves the incumbent unchanged. -/
theorem incumbent_monotone_witness :
    ((1 : ℚ) = 1 ∨ (1 : ℚ) = -1) ∧
    incumbentRun 1 [(1, [[some 5]], [1])] = some (5, 0) ∧
    incumbentRun 1 ([(1, [[some 5]], [1])] ++ [(1, [[some 7]], [1])]) =
      some (5, 0) ∧
    ((1 : ℚ) * 5 ≤ 1 * 5) := by
  have hrun1 : incumbentRun 1 [(1, [[some 5]], [1])] = some (5, 0) := by
    norm_num [incumbentRun, update_incumbent, compute_objective, obj_step,
      feasibleEnum, pyMinBySnd, List.range_succ, List.enum_cons',
      List.filterMap_cons, List.filterMap_nil, List.foldl_cons, List.foldl_nil]
  have hrun2 : incumbentRun 1 ([(1, [[some 5]], [1])] ++ [(1, [[some 7]], [1])]) =
      some (5, 0) := by
    norm_num [incumbentRun, update_incumbent, compute_objective, obj_step,
      feasibleEnum, pyMinBySnd, List.range_succ, List.enum_cons',
      List.filterMap_cons, List.filterMap_nil, List.foldl_cons, List.foldl_nil]
  refine ⟨Or.inl rfl, hrun1, hrun2, ?_⟩
  have h := incumbent_monotone 1 (Or.inl rfl) [(1, [[some 5]], [1])]
    (1, [[some 7]], [1]) 5 5 0 0 hrun1 hrun2
  exact h.1

/-! ## Cut distribution (`_distribute_cuts`, C4, C5)

A feasibility-cut library entry is `some magnitude` for a tuple `(obj, cut)`
(only the magnitude `c[0]` matters for distribution decisions) and `none` for
the string markers (`".  "`, `"!!!!"`, `"????"`), mirroring the
`type(c) is tuple` tests. -/

/-- Truncation toward zero: Python's `int()` applied to a rational. -/
def pyInt (q : ℚ) : ℤ := if q < 0 then -(Int.floor (-q)) else Int.floor q

/-- Python list indexing `l[i]` including negative-index wrap-around; `none`
models the `IndexError` on an index below `-len(l)`. -/
def pyIndex (l : List ℚ) (i : ℤ) : Option ℚ :=
  if 0 ≤ i then l.get? i.toNat
  else if 0 ≤ (l.length : ℤ) + i then l.get? ((l.length : ℤ) + i).toNat
  else none

/-- `cutObj` of `_distribute_cuts`: the magnitudes of all tuple entries of
`self.feasibility_cuts` strictly above `cutThreshold_minDiff`, sorted
ascending. -/
def cutObjList (minDiff : ℚ) (fcuts : List (List (Option ℚ))) : List ℚ :=
  ((fcuts.flatten.filterMap id).filter (fun m => minDiff < m)).insertionSort (· ≤ ·)

/-- `allCutThreshold` of `_distribute_cuts`: with a nonempty library,
`cutObj[min(int((1 - cutThreshold_crossCut) * len(cutObj)), len(cutObj) - 1)]`;
with an empty library the default `1`. -/
def allCutThreshold (minDiff crossCut : ℚ)
    (fcuts : List (List (Option ℚ))) : Option ℚ :=
  let cutObj := cutObjList minDiff fcuts
  if cutObj.isEmpty then some 1
  else pyIndex cutObj
    (min (pyInt ((1 - crossCut) * cutObj.length)) ((cutObj.length : ℤ) - 1))

/-- The magnitudes of tuple cuts for candidate `id` strictly above `thresh`:
`[c[id] for c in feasibility_cuts if type(c[id]) is tuple and c[id][0] > thresh]`. -/
def magsAt (fcuts : List (List (Option ℚ))) (id : ℕ) (thresh : ℚ) : List ℚ :=
  fcuts.filterMap (fun c =>
    match c.getD id none with
    | some m => if thresh < m then some m else none
    | none => none)

/-- The per-subproblem candidate loop of `_distribute_cuts`: a candidate owned
by one of the subproblem's scenarios contributes its cuts above
`cutThreshold_minDiff`; a non-owned candidate for which this subproblem is
still infeasible (`feasible_objectives[id] is None`) contributes its cuts
above `allCutThreshold`; a non-owned candidate on which the subproblem is
feasible contributes nothing. -/
def cutsForProblem (minDiff cutoff : ℚ) (ownedScens : List String)
    (solutions : List (List ℚ × List String)) (feasObjs : List (Option ℚ))
    (fcuts : List (List (Option ℚ))) : List ℚ :=
  ((solutions.zip feasObjs).enum).flatMap (fun p =>
    if p.2.1.2.any (fun nm => ownedScens.contains nm) then
      magsAt fcuts p.1 minDiff
    else if p.2.2.isNone then magsAt fcuts p.1 cutoff
    else [])

/-- The feasibility-cut part of `_distribute_cuts`: the list of cut magnitudes
sent to each subproblem (a subproblem is represented by its scenario-name
list); `none` models the `IndexError` path of the cutoff computation. -/
def distribute_cuts (minDiff crossCut : ℚ) (problems : List (List String))
    (solutions : List (List ℚ × List String)) (feasObjs : List (Option ℚ))
    (fcuts : List (List (Option ℚ))) : Option (List (List ℚ)) :=
  match allCutThreshold minDiff crossCut fcuts with
  | none => none
  | some cutoff =>
    some (problems.map (fun ps =>
      cutsForProblem minDiff cutoff ps solutions feasObjs fcuts))

theorem mem_magsAt (fcuts : List (List (Option ℚ))) (id : ℕ) (thresh m : ℚ)
    (h : m ∈ magsAt fcuts id thresh) : thresh < m := by
  rw [magsAt, List.mem_filterMap] at h
  obtain ⟨c, _, hc⟩ := h
  cases hg : c.getD id none with
  | none => rw [hg] at hc; cases hc
  | some w =>
    rw [hg] at hc
    simp only at hc
    by_cases ht : thresh < w
    · rw [if_pos ht] at hc
      exact (Option.some.inj hc) ▸ ht
    · rw [if_neg ht] at hc
      cases hc

theorem mem_cutObjList (minDiff : ℚ) (fcuts : List (List (Option ℚ))) (x : ℚ)
    (h : x ∈ cutObjList minDiff fcuts) : minDiff < x := by
  rw [cutObjList] at h
  have hperm := List.perm_insertionSort (α := ℚ) (· ≤ ·)
    ((fcuts.flatten.filterMap id).filter (fun m => minDiff < m))
  rw [hperm.mem_iff, List.mem_filter] at h
  exact of_decide_eq_true h.2

theorem pyIndex_mem (l : List ℚ) (i : ℤ) (x : ℚ) (h : pyIndex l i = some x) :
    x ∈ l := by
  rw [pyIndex] at h
  by_cases h0 : 0 ≤ i
  · rw [if_pos h0] at h
    exact List.get?_mem h
  · rw [if_neg h0] at h
    by_cases h1 : 0 ≤ (l.length : ℤ) + i
    · rw [if_pos h1] at h
      exact List.get?_mem h
    · rw [if_neg h1] at h
      cases h

theorem mem_cutsForProblem (minDiff cutoff : ℚ) (ownedScens : List String)
    (solutions : List (List ℚ × List String)) (feasObjs : List (Option ℚ))
    (fcuts : List (List (Option ℚ))) (m : ℚ)
    (h : m ∈ cutsForProblem minDiff cutoff ownedScens solutions feasObjs fcuts) :
    minDiff < m ∨ cutoff < m := by
  rw [cutsForProblem, List.mem_flatMap] at h
  obtain ⟨p, _, hp⟩ := h
  by_cases hown : p.2.1.2.any (fun nm => ownedScens.contains nm)
  · rw [if_pos hown] at hp
    exact Or.inl (mem_magsAt fcuts p.1 minDiff m hp)
  · rw [if_neg hown] at hp
    by_cases hfeas : p.2.2.isNone
    · rw [if_pos hfeas] at hp
      exact Or.inr (mem_magsAt fcuts p.1 cutoff m hp)
    · rw [if_neg hfeas] at hp
      cases hp

/-- C4 counterexample: with `cutThreshold_minDiff = 4` (a configuration above
the hard-coded empty-library default of `1`), a single cut of magnitude `2`
and a still-infeasible non-owning subproblem, the library `cutObj` is empty
(no magnitude exceeds `4`), so `allCutThreshold` falls back to `1`, and the
magnitude-`2` cut — below the minimum-difference threshold — is distributed. -/
theorem cut_below_minDiff_distributed :
    distribute_cuts 4 1 [["s2"]] [([0], ["s1"])] [none] [[some 2]] =
      some [[2]] ∧ (2 : ℚ) < 4 := by
  constructor
  · decide
  · decide

/-- C4 (amended): provided `cutThreshold_minDiff ≤ 1` (in particular at its
default `0.10`), every feasibility-cut magnitude that `_distribute_cuts` sends
to any subproblem is strictly greater than `cutThreshold_minDiff`; without
that proviso the empty-library fallback cutoff `1` can admit smaller cuts. -/
theorem cut_threshold_respected (minDiff crossCut : ℚ) (hmd : minDiff ≤ 1)
    (problems : List (List String)) (solutions : List (List ℚ × List String))
    (feasObjs : List (Option ℚ)) (fcuts : List (List (Option ℚ)))
    (dist : List (List ℚ))
    (h : distribute_cuts minDiff crossCut problems solutions feasObjs fcuts =
      some dist) :
    ∀ plist ∈ dist, ∀ m ∈ plist, minDiff < m := by
  intro plist hpl m hm
  rw [distribute_cuts] at h
  cases hth : allCutThreshold minDiff crossCut fcuts with
  | none => rw [hth] at h; cases h
  | some cutoff =>
    rw [hth] at h
    have hdist := Option.some.inj h
    subst hdist
    rw [List.mem_map] at hpl
    obtain ⟨ps, _, hps⟩ := hpl
    subst hps
    rcases mem_cutsForProblem minDiff cutoff ps solutions feasObjs fcuts m hm
      with hc | hc
    · exact hc
    · have hcut : minDiff ≤ cutoff := by
        rw [allCutThreshold] at hth
        by_cases he : (cutObjList minDiff fcuts).isEmpty
        · rw [if_pos he] at hth
          have h1 := Option.some.inj hth
          rw [← h1]
          exact hmd
        · rw [if_neg he] at hth
          exact le_of_lt (mem_cutObjList minDiff fcuts cutoff
            (pyIndex_mem _ _ _ hth))
      exact lt_of_le_of_lt hcut hc

/-- Witness for `cut_threshold_respected` at a concrete input. -/
theorem cut_threshold_respected_witness :
    ((0 : ℚ) ≤ 1) ∧
    distribute_cuts 0 1 [["s2"]] [([0], ["s1"])] [none] [[some 2], [some 3]] =
      some [[3]] ∧
    ∀ plist ∈ [[(3 : ℚ)]], ∀ m ∈ plist, (0 : ℚ) < m := by
  have hd : distribute_cuts 0 1 [["s2"]] [([0], ["s1"])] [none]
      [[some 2], [some 3]] = some [[3]] := by
    norm_num [distribute_cuts, allCutThreshold, cutObjList, cutsForProblem,
      magsAt, pyIndex, pyInt, List.insertionSort, List.orderedInsert,
      List.enum_cons', List.filterMap_cons]
    all_goals decide
  exact ⟨by norm_num,  hd,
    cut_threshold_respected 0 1 (by norm_num) [["s2"]] [([0], ["s1"])] [none]
      [[some 2], [some 3]] [[3]] hd⟩

/-- C5 counterexample: with `cutThreshold_crossCut = 1`, a library holding one
cut of magnitude `2` above the minimum threshold `0`, and a still-infeasible
non-owning subproblem, the cutoff is the weakest magnitude `2` itself, and the
strict comparison `c[id][0] > allCutThreshold` withholds that weakest cut: the
subproblem receives no cuts although magnitude `2` is above the minimum
threshold. -/
theorem weakest_cut_withheld :
    distribute_cuts 0 1 [["s2"]] [([0], ["s1"])] [none] [[some 2]] =
      some [[]] ∧ (0 : ℚ) < 2 := by
  constructor
  · norm_num [distribute_cuts, allCutThreshold, cutObjList, cutsForProblem,
      magsAt, pyIndex, pyInt, List.insertionSort, List.orderedInsert,
      List.enum_cons', List.filterMap_cons]
    all_goals decide
  · norm_num

/-- C5 (amended): when `cutThreshold_crossCut = 1` and the above-minimum
library is nonempty, the distribution cutoff equals the weakest above-minimum
cut magnitude (the head of the ascending-sorted library, a lower bound of it),
and every cut with magnitude **strictly above** that cutoff is distributed to
each still-infeasible non-owning subproblem; cuts whose magnitude equals the
cutoff — in particular the weakest itself — are withheld from them by the
strict comparison. -/
theorem crosscut_one_distributes_above_weakest (minDiff : ℚ)
    (solutions : List (List ℚ × List String)) (feasObjs : List (Option ℚ))
    (fcuts : List (List (Option ℚ))) (m0 : ℚ) (t : List ℚ)
    (hcut : cutObjList minDiff fcuts = m0 :: t) :
    allCutThreshold minDiff 1 fcuts = some m0 ∧
    (∀ x ∈ cutObjList minDiff fcuts, m0 ≤ x) ∧
    ∀ (ownedScens : List String) (id : ℕ) (sol : List ℚ × List String)
      (c : List (Option ℚ)) (mag : ℚ),
      solutions.get? id = some sol →
      feasObjs.get? id = some none →
      sol.2.any (fun nm => ownedScens.contains nm) = false →
      c ∈ fcuts → c.getD id none = some mag → m0 < mag →
      mag ∈ cutsForProblem minDiff m0 ownedScens solutions feasObjs fcuts := by
  refine ⟨?_, ?_, ?_⟩
  · rw [allCutThreshold]
    simp only [hcut]
    rw [if_neg (by simp)]
    have hz : (1 : ℚ) - 1 = 0 := by norm_num
    rw [hz, zero_mul]
    have hp0 : pyInt 0 = 0 := by
      rw [pyInt, if_neg (by norm_num)]
      simp
    rw [hp0]
    have hmin : min (0 : ℤ) (((m0 :: t).length : ℤ) - 1) = 0 := by
      have : (0 : ℤ) ≤ ((m0 :: t).length : ℤ) - 1 := by
        simp only [List.length_cons]
        omega
      omega
    rw [hmin, pyIndex, if_pos (le_refl 0)]
    rfl
  · intro x hx
    have hsorted : (cutObjList minDiff fcuts).Sorted (· ≤ ·) :=
      List.sorted_insertionSort (· ≤ ·) _
    rw [hcut] at hsorted hx
    rcases List.mem_cons.mp hx with hx | hx
    · exact hx ▸ le_refl _
    · exact (List.sorted_cons.mp hsorted).1 x hx
  · intro ownedScens id sol c mag hsol hfeas hown hcf hcg hlt
    rw [cutsForProblem, List.mem_flatMap]
    refine ⟨(id, (sol, none)), ?_, ?_⟩
    · apply List.mk_mem_enum_iff_getElem?.mpr
      rw [← List.get?_eq_getElem?]
      rw [List.get?_zip_eq_some]
      exact ⟨hsol, hfeas⟩
    · simp only [hown]
      rw [if_neg (by simp)]
      rw [if_pos (show (none : Option ℚ).isNone = true from rfl)]
      rw [magsAt, List.mem_filterMap]
      refine ⟨c, hcf, ?_⟩
      rw [hcg]
      simp only
      rw [if_pos hlt]

/-- Witness for `crosscut_one_distributes_above_weakest` at a concrete
input: cuts of magnitudes `2` and `3`, cutoff `2`, and the magnitude-`3` cut
reaches the still-infeasible non-owning subproblem. -/
theorem crosscut_one_distributes_above_weakest_witness :
    cutObjList 0 [[some 2], [some 3]] = [2, 3] ∧
    allCutThreshold 0 1 [[some 2], [some 3]] = some 2 ∧
    (3 : ℚ) ∈ cutsForProblem 0 2 ["s2"] [([0], ["s1"])] [none]
      [[some 2], [some 3]] := by
  have hcut : cutObjList 0 [[some 2], [some 3]] = [2, 3] := by decide
  have h := crosscut_one_distributes_above_weakest 0 [([0], ["s1"])] [none]
    [[some 2], [some 3]] 2 [3] hcut
  refine ⟨hcut, h.1, ?_⟩
  exact h.2.2 ["s2"] 0 ([0], ["s1"]) [some 3] 3 rfl rfl (by decide)
    (by decide) rfl (by decide)

/-! ## Rho estimation (`_process_dual_information` and step (7) of
`_interscenario_plugin`; C8, C9, C10)

First-stage variables are indexed `0, ..., nVars-1` (the keys of `xbar`); a
variable map is a `List ℚ` read positionally.  `probOf` is the scenario-tree
lookup `ph._scenario_tree.get_scenario(name)._probability`. -/

/-- Python's `max()` over a nonempty list (`0` only as the value on `[]`,
which the source never hits: there is at least one candidate solution). -/
def listMaxD : List ℚ → ℚ
  | [] => 0
  | a :: t => t.foldl max a

/-- Python's `min()` over a nonempty list. -/
def listMinD : List ℚ → ℚ
  | [] => 0
  | a :: t => t.foldl min a

/-- The per-variable spread computed on the first `_process_dual_information`
call after `reset`: `max(s[0][v] for s in solutions) - min(...)`. -/
def x_deviation_of (nVars : ℕ)
    (solutions : List (List ℚ × List String)) : List ℚ :=
  (List.range nVars).map (fun v =>
    listMaxD (solutions.map (fun s => s.1.getD v 0)) -
    listMinD (solutions.map (fun s => s.1.getD v 0)))

/-- `soln_prob`: for each candidate, the total probability of the scenarios
that reported it. -/
def soln_prob (probOf : String → ℚ)
    (solutions : List (List ℚ × List String)) : List ℚ :=
  solutions.map (fun s => (s.2.map probOf).sum)

/-- `dual_values[scen_id][soln_id]`, `none` when the dual map is missing. -/
def dualAt (dual_values : List (List (Option (List ℚ))))
    (sid soln_id : ℕ) : Option (List ℚ) :=
  (dual_values.getD sid []).getD soln_id none

/-- One step of the `p_total` accumulation in the `avg_dual` loop: skip pairs
whose dual map is missing (the `continue`), otherwise add the probability. -/
def pt_step (dual_values : List (List (Option (List ℚ)))) (soln_id : ℕ)
    (acc : ℚ) (sp : ℕ × ℚ) : ℚ :=
  match dualAt dual_values sp.1 soln_id with
  | none => acc
  | some _ => acc + sp.2

/-- One step of the `avg_dual` numerator accumulation for variable `v`. -/
def ad_step (dual_values : List (List (Option (List ℚ)))) (soln_id v : ℕ)
    (acc : ℚ) (sp : ℕ × ℚ) : ℚ :=
  match dualAt dual_values sp.1 soln_id with
  | none => acc
  | some dmap => acc + dmap.getD v 0 * sp.2

/-- `p_total` of the `avg_dual` loop: the summed probability of exactly the
subproblems whose dual map for this candidate is present. -/
def p_total (dual_values : List (List (Option (List ℚ))))
    (probability : List ℚ) (soln_id : ℕ) : ℚ :=
  probability.enum.foldl (pt_step dual_values soln_id) 0

/-- The accumulated numerator of `avg_dual` for variable `v`. -/
def avg_dual_num (dual_values : List (List (Option (List ℚ))))
    (probability : List ℚ) (soln_id v : ℕ) : ℚ :=
  probability.enum.foldl (ad_step dual_values soln_id v) 0

/-- `avg_dual[v]` after the loop: divided by `p_total` only when `p_total` is
nonzero (`if p_total:`). -/
def avg_dual (dual_values : List (List (Option (List ℚ))))
    (probability : List ℚ) (soln_id v : ℕ) : ℚ :=
  if p_total dual_values probability soln_id = 0 then
    avg_dual_num dual_values probability soln_id v
  else
    avg_dual_num dual_values probability soln_id v /
      p_total dual_values probability soln_id

/-- `weighted_rho[v]`: the absolute value of the candidate-probability-weighted
sum of `avg_dual`, normalized by `1 / (x_deviation[v] + 1)`. -/
def weighted_rho (xdev : List ℚ) (probOf : String → ℚ)
    (solutions : List (List ℚ × List String))
    (dual_values : List (List (Option (List ℚ))))
    (probability : List ℚ) (v : ℕ) : ℚ :=
  |((soln_prob probOf solutions).enum.foldl (fun acc sp =>
      acc + sp.2 * avg_dual dual_values probability sp.1 v /
        (xdev.getD v 0 + 1)) 0)|

/-- `_process_dual_information`: computes `x_deviation` only when the stored
state is `None` (first call after `reset`) and reuses the stored list
otherwise; returns the `weighted_rho` map together with the (possibly frozen)
deviation that the plugin stores back into `self.x_deviation`. -/
def process_dual_information (nVars : ℕ) (probOf : String → ℚ)
    (xdevState : Option (List ℚ))
    (solutions : List (List ℚ × List String))
    (dual_values : List (List (Option (List ℚ))))
    (probability : List ℚ) : List ℚ × List ℚ :=
  let xdev :=
    match xdevState with
    | none => x_deviation_of nVars solutions
    | some dev => dev
  ((List.range nVars).map
    (fun v => weighted_rho xdev probOf solutions dual_values probability v),
    xdev)

/-- Step (7) of `_interscenario_plugin`: when `self.rho is None`, initialize
`rho[v] = rhoScale * new_rho[v]`; otherwise apply the damped update
`rho[v] += rhoDamping * (rhoScale * new_rho[v] - rho[v])`. -/
def rho_update (rhoScale rhoDamping : ℚ) (rho : Option (List ℚ))
    (new_rho : List ℚ) : List ℚ :=
  match rho with
  | none => new_rho.map (fun r => rhoScale * r)
  | some old =>
    List.zipWith (fun o r => o + rhoDamping * (rhoScale * r - o)) old new_rho

/-- The inputs one `_interscenario_plugin` invocation feeds into the rho
machinery. -/
structure PluginCallInput where
  solutions : List (List ℚ × List String)
  dual_values : List (List (Option (List ℚ)))
  probability : List ℚ

/-- The plugin state the rho machinery reads and writes (`self.rho`,
`self.x_deviation`); `reset` sets both to `None`. -/
structure PluginRhoState where
  rho : Option (List ℚ)
  x_deviation : Option (List ℚ)

/-- One `_interscenario_plugin` invocation's effect on the rho state:
`_process_dual_information` (freezing `x_deviation` on first use) followed by
the initialization/damping update of `self.rho`. -/
def plugin_rho_step (nVars : ℕ) (probOf : String → ℚ)
    (rhoScale rhoDamping : ℚ) (st : PluginRhoState)
    (inp : PluginCallInput) : PluginRhoState :=
  let pr := process_dual_information nVars probOf st.x_deviation
    inp.solutions inp.dual_values inp.probability
  { rho := some (rho_update rhoScale rhoDamping st.rho pr.1)
    x_deviation := some pr.2 }

/-- A sequence of `_interscenario_plugin` invocations starting from the
`reset` state. -/
def plugin_rho_run (nVars : ℕ) (probOf : String → ℚ)
    (rhoScale rhoDamping : ℚ) (inps : List PluginCallInput) : PluginRhoState :=
  inps.foldl (plugin_rho_step nVars probOf rhoScale rhoDamping)
    { rho := none, x_deviation := none }

theorem p_total_fold_eq (dv : List (List (Option (List ℚ)))) (sid : ℕ) :
    ∀ (l : List (ℕ × ℚ)) (acc : ℚ),
      l.foldl (pt_step dv sid) acc =
      acc + ((l.filter (fun sp => (dualAt dv sp.1 sid).isSome)).map
        (fun sp => sp.2)).sum := by
  intro l
  induction l with
  | nil => intro acc; simp
  | cons sp t ih =>
    intro acc
    rw [List.foldl_cons]
    cases hda : dualAt dv sp.1 sid with
    | none =>
      have hstep : pt_step dv sid acc sp = acc := by
        unfold pt_step
        rw [hda]
      rw [hstep, ih acc, List.filter_cons, if_neg (by simp [hda])]
    | some dmap =>
      have hstep : pt_step dv sid acc sp = acc + sp.2 := by
        unfold pt_step
        rw [hda]
      rw [hstep, ih (acc + sp.2), List.filter_cons, if_pos (by simp [hda])]
      rw [List.map_cons, List.sum_cons]
      ring

theorem avg_num_fold_eq (dv : List (List (Option (List ℚ)))) (sid v : ℕ) :
    ∀ (l : List (ℕ × ℚ)) (acc : ℚ),
      l.foldl (ad_step dv sid v) acc =
      acc + ((l.filter (fun sp => (dualAt dv sp.1 sid).isSome)).map
        (fun sp => ((dualAt dv sp.1 sid).getD []).getD v 0 * sp.2)).sum := by
  intro l
  induction l with
  | nil => intro acc; simp
  | cons sp t ih =>
    intro acc
    rw [List.foldl_cons]
    cases hda : dualAt dv sp.1 sid with
    | none =>
      have hstep : ad_step dv sid v acc sp = acc := by
        unfold ad_step
        rw [hda]
      rw [hstep, ih acc, List.filter_cons, if_neg (by simp [hda])]
    | some dmap =>
      have hstep : ad_step dv sid v acc sp = acc + dmap.getD v 0 * sp.2 := by
        unfold ad_step
        rw [hda]
      rw [hstep, ih (acc + dmap.getD v 0 * sp.2), List.filter_cons,
        if_pos (by simp [hda])]
      rw [List.map_cons, List.sum_cons, hda]
      simp only [Option.getD_some]
      ring

theorem get?_eq_some_getD (l : List ℚ) (v : ℕ) (hv : v < l.length) :
    l.get? v = some (l.getD v 0) := by
  rw [List.get?_eq_getElem?, List.getElem?_eq_getElem hv,
    List.getD_eq_getElem?_getD, List.getElem?_eq_getElem hv]
  rfl

/-- C8: the first rho update after `reset` sets
`rho[v] = rhoScale * weighted_average[v]` and each later update sets
`rho[v] <- rho[v] + rhoDamping * (rhoScale * weighted_average[v] - rho[v])`,
where `weighted_average` is the `_process_dual_information` output; inside it,
the per-candidate dual average runs over exactly the (scenario, candidate)
pairs whose dual map is present — pairs returning `None` are excluded from
both the numerator and the probability denominator rather than being averaged
in as zero. -/
theorem rho_update_formula (nVars : ℕ) (probOf : String → ℚ) (s d : ℚ)
    (xd : Option (List ℚ)) (inp : PluginCallInput) (w old : List ℚ)
    (v sid : ℕ) (dv : List (List (Option (List ℚ)))) (prob : List ℚ)
    (hv : v < w.length) (hvo : v < old.length)
    (hpt : p_total dv prob sid ≠ 0) :
    (plugin_rho_step nVars probOf s d ⟨none, xd⟩ inp).rho =
      some (rho_update s d none
        (process_dual_information nVars probOf xd inp.solutions
          inp.dual_values inp.probability).1) ∧
    (plugin_rho_step nVars probOf s d ⟨some old, xd⟩ inp).rho =
      some (rho_update s d (some old)
        (process_dual_information nVars probOf xd inp.solutions
          inp.dual_values inp.probability).1) ∧
    (rho_update s d none w).get? v = some (s * w.getD v 0) ∧
    (rho_update s d (some old) w).get? v =
      some (old.getD v 0 + d * (s * w.getD v 0 - old.getD v 0)) ∧
    p_total dv prob sid =
      ((prob.enum.filter (fun sp => (dualAt dv sp.1 sid).isSome)).map
        (fun sp => sp.2)).sum ∧
    avg_dual dv prob sid v =
      ((prob.enum.filter (fun sp => (dualAt dv sp.1 sid).isSome)).map
        (fun sp => ((dualAt dv sp.1 sid).getD []).getD v 0 * sp.2)).sum /
      ((prob.enum.filter (fun sp => (dualAt dv sp.1 sid).isSome)).map
        (fun sp => sp.2)).sum := by
  have hptf : p_total dv prob sid =
      ((prob.enum.filter (fun sp => (dualAt dv sp.1 sid).isSome)).map
        (fun sp => sp.2)).sum := by
    unfold p_total
    rw [p_total_fold_eq dv sid prob.enum 0, zero_add]
  have hnumf : avg_dual_num dv prob sid v =
      ((prob.enum.filter (fun sp => (dualAt dv sp.1 sid).isSome)).map
        (fun sp => ((dualAt dv sp.1 sid).getD []).getD v 0 * sp.2)).sum := by
    unfold avg_dual_num
    rw [avg_num_fold_eq dv sid v prob.enum 0, zero_add]
  refine ⟨rfl, rfl, ?_, ?_, hptf, ?_⟩
  · show (w.map (fun r => s * r)).get? v = some (s * w.getD v 0)
    rw [List.get?_map, get?_eq_some_getD w v hv]
    rfl
  · show (List.zipWith (fun o r => o + d * (s * r - o)) old w).get? v =
      some (old.getD v 0 + d * (s * w.getD v 0 - old.getD v 0))
    rw [List.get?_zipWith', get?_eq_some_getD old v hvo, get?_eq_some_getD w v hv]
    rfl
  · unfold avg_dual
    rw [if_neg hpt, hptf, hnumf]

/-- Witness for `rho_update_formula` at a concrete input. -/
theorem rho_update_formula_witness :
    ((0 : ℕ) < [(3 : ℚ)].length) ∧ ((0 : ℕ) < [(4 : ℚ)].length) ∧
    p_total [[some [5]]] [1] 0 ≠ 0 ∧
    (rho_update 2 (1/2) none [3]).get? 0 = some (2 * ([(3 : ℚ)].getD 0 0)) := by
  have hpt : p_total [[some [5]]] [(1 : ℚ)] 0 ≠ 0 := by
    norm_num [p_total, pt_step, dualAt, List.enum_cons', List.foldl_cons,
      List.foldl_nil]
  refine ⟨by decide, by decide, hpt, ?_⟩
  exact (rho_update_formula 1 (fun _ => 1) 2 (1/2)
    none ⟨[], [], []⟩ [3] [4] 0 0 [[some [5]]] [1]
    (by decide) (by decide) hpt).2.2.1

theorem process_dual_information_nonneg (nVars : ℕ) (probOf : String → ℚ)
    (xd : Option (List ℚ)) (solutions : List (List ℚ × List String))
    (dual_values : List (List (Option (List ℚ)))) (probability : List ℚ) :
    ∀ r ∈ (process_dual_information nVars probOf xd solutions dual_values
      probability).1, 0 ≤ r := by
  intro r hr
  cases xd with
  | none =>
    obtain ⟨v, _, hv⟩ := List.mem_map.mp hr
    rw [← hv]
    unfold weighted_rho
    exact abs_nonneg _
  | some dev =>
    obtain ⟨v, _, hv⟩ := List.mem_map.mp hr
    rw [← hv]
    unfold weighted_rho
    exact abs_nonneg _

theorem zipWith_damped_nonneg (s d : ℚ) (hs : 0 ≤ s) (hd0 : 0 ≤ d)
    (hd1 : d ≤ 1) :
    ∀ (old w : List ℚ), (∀ o ∈ old, 0 ≤ o) → (∀ r ∈ w, 0 ≤ r) →
      ∀ x ∈ List.zipWith (fun o r => o + d * (s * r - o)) old w, 0 ≤ x := by
  intro old
  induction old with
  | nil =>
    intro w _ _ x hx
    rw [List.zipWith_nil_left] at hx
    cases hx
  | cons o t ih =>
    intro w hold hw x hx
    cases w with
    | nil =>
      rw [List.zipWith_nil_right] at hx
      cases hx
    | cons r u =>
      rw [List.zipWith_cons_cons] at hx
      rcases List.mem_cons.mp hx with hx | hx
      · rw [hx]
        have hrw : o + d * (s * r - o) = (1 - d) * o + d * (s * r) := by ring
        rw [hrw]
        have h1 : 0 ≤ (1 - d) * o :=
          mul_nonneg (by linarith) (hold o (List.mem_cons_self o t))
        have h2 : 0 ≤ d * (s * r) :=
          mul_nonneg hd0 (mul_nonneg hs (hw r (List.mem_cons_self r u)))
        linarith
      · exact ih u (fun y hy => hold y (List.mem_cons_of_mem o hy))
          (fun y hy => hw y (List.mem_cons_of_mem r hy)) x hx

theorem rho_update_nonneg (s d : ℚ) (hs : 0 ≤ s) (hd0 : 0 ≤ d) (hd1 : d ≤ 1)
    (rho : Option (List ℚ)) (w : List ℚ)
    (hrho : ∀ l, rho = some l → ∀ o ∈ l, 0 ≤ o)
    (hw : ∀ r ∈ w, 0 ≤ r) :
    ∀ x ∈ rho_update s d rho w, 0 ≤ x := by
  intro x hx
  cases rho with
  | none =>
    obtain ⟨r, hr, hrx⟩ := List.mem_map.mp hx
    rw [← hrx]
    exact mul_nonneg hs (hw r hr)
  | some old =>
    exact zipWith_damped_nonneg s d hs hd0 hd1 old w (hrho old rfl) hw x hx

/-- C9: for every sequence of `_interscenario_plugin` invocations after
`reset`, with `rhoScale ≥ 0` and `rhoDamping ∈ [0, 1]`, every stored `rho[v]`
is nonnegative: the weighted rho estimate is taken in absolute value, the
initialization scales it by `rhoScale`, and the damped recurrence is a convex
combination of the old value and the scaled estimate. -/
theorem rho_nonneg (nVars : ℕ) (probOf : String → ℚ) (s d : ℚ)
    (hs : 0 ≤ s) (hd0 : 0 ≤ d) (hd1 : d ≤ 1)
    (inps : List PluginCallInput) (l : List ℚ)
    (h : (plugin_rho_run nVars probOf s d inps).rho = some l) :
    ∀ r ∈ l, 0 ≤ r := by
  suffices hgen : ∀ (inps : List PluginCallInput) (st : PluginRhoState),
      (∀ l0, st.rho = some l0 → ∀ o ∈ l0, 0 ≤ o) →
      ∀ l1, (inps.foldl (plugin_rho_step nVars probOf s d) st).rho = some l1 →
        ∀ r ∈ l1, 0 ≤ r by
    exact hgen inps { rho := none, x_deviation := none }
      (fun l0 h0 => by cases h0) l h
  intro inps
  induction inps with
  | nil =>
    intro st hst l1 h1
    rw [List.foldl_nil] at h1
    exact hst l1 h1
  | cons inp rest ih =>
    intro st hst l1 h1
    rw [List.foldl_cons] at h1
    refine ih (plugin_rho_step nVars probOf s d st inp) ?_ l1 h1
    intro l0 h0 o ho
    have h0' : l0 = rho_update s d st.rho
        (process_dual_information nVars probOf st.x_deviation
          inp.solutions inp.dual_values inp.probability).1 :=
      (Option.some.inj h0).symm
    rw [h0'] at ho
    exact rho_update_nonneg s d hs hd0 hd1 st.rho _ hst
      (process_dual_information_nonneg nVars probOf st.x_deviation
        inp.solutions inp.dual_values inp.probability) o ho

/-- Witness for `rho_nonneg` at a concrete input. -/
theorem rho_nonneg_witness :
    ((0 : ℚ) ≤ 1) ∧ ((0 : ℚ) ≤ 1/2) ∧ ((1/2 : ℚ) ≤ 1) ∧
    (plugin_rho_run 1 (fun _ => 1) 1 (1/2)
      [⟨[([2], ["s1"])], [[some [3]]], [1]⟩]).rho = some [3] ∧
    ∀ r ∈ [(3 : ℚ)], 0 ≤ r := by
  have hrun : (plugin_rho_run 1 (fun _ => 1) 1 (1/2)
      [⟨[([2], ["s1"])], [[some [3]]], [1]⟩]).rho = some [3] := by
    norm_num [plugin_rho_run, plugin_rho_step, process_dual_information,
      weighted_rho, avg_dual, avg_dual_num, p_total, pt_step, ad_step, dualAt,
      soln_prob, x_deviation_of, listMaxD, listMinD, rho_update,
      List.enum_cons', List.foldl_cons, List.foldl_nil, List.range_succ]
  refine ⟨by norm_num, by norm_num, by norm_num, hrun, ?_⟩
  exact rho_nonneg 1 (fun _ => 1) 1 (1/2) (by norm_num) (by norm_num)
    (by norm_num) [⟨[([2], ["s1"])], [[some [3]]], [1]⟩] [3] hrun

/-- C10: the spread `x_deviation` is computed only on the first
`_process_dual_information` call after `reset`; after any nonempty sequence of
invocations, the stored spread is exactly the one computed from the **first**
invocation's candidate solutions, regardless of how the later invocations'
candidates (and their spreads) differ. -/
theorem x_deviation_frozen (nVars : ℕ) (probOf : String → ℚ) (s d : ℚ)
    (first : PluginCallInput) (rest : List PluginCallInput) :
    (plugin_rho_run nVars probOf s d (first :: rest)).x_deviation =
      some (x_deviation_of nVars first.solutions) := by
  suffices hkeep : ∀ (inps : List PluginCallInput) (st : PluginRhoState)
      (dev : List ℚ), st.x_deviation = some dev →
      (inps.foldl (plugin_rho_step nVars probOf s d) st).x_deviation =
        some dev by
    rw [plugin_rho_run, List.foldl_cons]
    apply hkeep
    show some (process_dual_information nVars probOf none first.solutions
      first.dual_values first.probability).2 = _
    rfl
  intro inps
  induction inps with
  | nil => intro st dev hdev; rw [List.foldl_nil]; exact hdev
  | cons inp rest2 ih =>
    intro st dev hdev
    rw [List.foldl_cons]
    apply ih
    show some (process_dual_information nVars probOf st.x_deviation
      inp.solutions inp.dual_values inp.probability).2 = some dev
    rw [hdev]
    rfl

end InterScenario
